import Mathlib

/-
  Shallow embedding of the btmalloc allocator source (src/btmalloc.c)
  and verification of the specification claims about it.

  Machine integers are modelled as Nat with explicit `% 2 ^ 64` where
  64-bit overflow matters.  Memory is modelled as a function from
  8-aligned byte addresses to the 64-bit word stored there.  C asserts
  are modelled by returning `none` from an `Option`-valued function.
  Host endianness and pointer width enter as explicit Bool parameters,
  mirroring the `BIG_ENDIAN_CPU` test and the `sizeof (void*) <
  alignment` test of the source.
-/

namespace Btmalloc

/-- sizeof(aligned_uint) in bytes. -/
def alignment : Nat := 8

/-- Index of the last byte of an 8-byte word (`alignment - 1`). -/
def rightmost : Nat := 7

/-- Bits in a byte. -/
def uchar_bits : Nat := 8

/-- UINT8_MAX. -/
def uchar_mask : Nat := 255

/-- Size of a block in bytes. -/
def block_size : Nat := 512

/--
`rotate(value, destination)` from the source: on a big-endian host, or when
pointers are narrower than the 64-bit word, the word is stored unchanged;
on a 64-bit little-endian host the word becomes `value >> 8` and the byte
at index `rightmost` (the most significant byte of the little-endian word)
is overwritten with the low byte of `value`.  The result is the 64-bit
`info` field of the destination union.
-/
def rotate (big_endian ptr_narrow : Bool) (value : Nat) : Nat :=
  if big_endian || ptr_narrow then
    value % 2 ^ 64
  else
    ((value % 2 ^ 64) / 2 ^ uchar_bits) % 2 ^ 56 + (value % 2 ^ uchar_bits) * 2 ^ 56

/--
`unrotate(value)` from the source: identity on big-endian or
narrow-pointer hosts; on a 64-bit little-endian host it returns
`(info << 8) | byte[rightmost]`, where `byte[rightmost]` is the most
significant byte of the little-endian word and the shift truncates to
64 bits.
-/
def unrotate (big_endian ptr_narrow : Bool) (w : Nat) : Nat :=
  if big_endian || ptr_narrow then
    w
  else
    ((w * 2 ^ uchar_bits) % 2 ^ 64) ||| ((w / 2 ^ 56) % 2 ^ uchar_bits)

/-- Bitwise or of values occupying disjoint bit ranges is addition. -/
theorem lor_disjoint (n : Nat) : ∀ x y : Nat, y < 2 ^ n → (x * 2 ^ n ||| y) = x * 2 ^ n + y := by
  induction n with
  | zero =>
    intro x y hy
    have h0 : y = 0 := by omega
    subst h0
    simp
  | succ n ih =>
    intro x y hy
    have hyd : y / 2 < 2 ^ n := by
      have h2 : 2 ^ (n + 1) = 2 * 2 ^ n := by ring
      omega
    have hx : x * 2 ^ (n + 1) = 2 * (x * 2 ^ n) := by ring
    rcases Nat.mod_two_eq_zero_or_one y with hm | hm
    · have h1 : x * 2 ^ (n + 1) ||| y = Nat.bit false (x * 2 ^ n) ||| Nat.bit false (y / 2) := by
        rw [Nat.bit_false]
        simp only []
        rw [hx]
        congr 1
        omega
      rw [h1, Nat.lor_bit]
      simp only [Bool.or_self, Nat.bit_val, Bool.toNat_false]
      rw [ih x (y / 2) hyd]
      omega
    · have h1 : x * 2 ^ (n + 1) ||| y = Nat.bit false (x * 2 ^ n) ||| Nat.bit true (y / 2) := by
        rw [Nat.bit_false, Nat.bit_true]
        simp only []
        rw [hx]
        congr 1
        omega
      rw [h1, Nat.lor_bit]
      simp only [Bool.false_or, Nat.bit_val, Bool.toNat_true]
      rw [ih x (y / 2) hyd]
      omega

/-- On a 64-bit little-endian host, `rotate` evaluates to this closed form. -/
theorem rotate_le_eq (a : Nat) (h64 : a < 2 ^ 64) :
    rotate false false a = a / 2 ^ 8 + (a % 2 ^ 8) * 2 ^ 56 := by
  simp only [rotate, Bool.or_self, Bool.false_eq_true, if_false, uchar_bits]
  omega

/--
Claim C4 (counterexample): the claim states that on a 64-bit little-endian
host `encode(a) & 0xFF == 0` for every 8-aligned `a`, and that
`encode(0x123456789ABCDEF0) = 0x00123456789ABCDE`.  The source's `rotate`
produces `0xF0123456789ABCDE` at that very input, whose lowest byte is
`0xDE`, not zero.
-/
theorem claim_C4_counterexample :
    (0x123456789ABCDEF0 : Nat) % 8 = 0 ∧
    Btmalloc.rotate false false 0x123456789ABCDEF0 = 0xF0123456789ABCDE ∧
    Btmalloc.rotate false false 0x123456789ABCDEF0 % 2 ^ 8 ≠ 0 ∧
    Btmalloc.rotate false false 0x123456789ABCDEF0 ≠ 0x00123456789ABCDE := by
  refine ⟨by norm_num, ?_, ?_, ?_⟩ <;> decide

/--
Claim C4 (amended): on a 64-bit little-endian host, for every 8-aligned
64-bit `a`, the encoded word is `(a >> 8) | ((a & 0xFF) << 56)`: the low
byte of `a` (whose three lowest bits are zero by alignment) moves into the
most significant byte, and the lowest byte of the encoded word is byte 1
of `a`, not zero in general.
-/
theorem claim_C4 (a : Nat) (h64 : a < 2 ^ 64) (h8 : a % 8 = 0) :
    rotate false false a = a / 2 ^ 8 + (a % 2 ^ 8) * 2 ^ 56 ∧
    rotate false false a / 2 ^ 56 = a % 2 ^ 8 ∧
    (rotate false false a / 2 ^ 56) % 8 = 0 ∧
    rotate false false a % 2 ^ 8 = (a / 2 ^ 8) % 2 ^ 8 := by
  have h := rotate_le_eq a h64
  have hq : a / 2 ^ 8 < 2 ^ 56 := by omega
  have hdiv : rotate false false a / 2 ^ 56 = a % 2 ^ 8 := by
    rw [h, Nat.add_mul_div_right _ _ (show 0 < 2 ^ 56 by norm_num), Nat.div_eq_of_lt hq]
    omega
  refine ⟨h, hdiv, by rw [hdiv]; omega, ?_⟩
  rw [h]
  have hsplit : (a % 2 ^ 8) * 2 ^ 56 = ((a % 2 ^ 8) * 2 ^ 48) * 2 ^ 8 := by ring
  rw [hsplit, Nat.add_mul_mod_self_right]

/-- Claim C4 witness: the amended claim applied at the spec's own input. -/
theorem claim_C4_witness :
    Btmalloc.rotate false false 0x123456789ABCDEF0 =
      0x123456789ABCDEF0 / 2 ^ 8 + (0x123456789ABCDEF0 % 2 ^ 8) * 2 ^ 56 :=
  (claim_C4 0x123456789ABCDEF0 (by norm_num) (by norm_num)).1

/--
Claim C5: for every 8-aligned 64-bit value `a`, `unrotate (rotate a) = a`,
on big-endian hosts, on little-endian hosts, and on hosts whose pointers
are narrower than 64 bits.
-/
theorem claim_C5 (big_endian ptr_narrow : Bool) (a : Nat)
    (h64 : a < 2 ^ 64) (h8 : a % 8 = 0) :
    unrotate big_endian ptr_narrow (rotate big_endian ptr_narrow a) = a := by
  cases big_endian with
  | true =>
    have hr : rotate true ptr_narrow a = a % 2 ^ 64 := by simp [rotate]
    have hu : unrotate true ptr_narrow (a % 2 ^ 64) = a % 2 ^ 64 := by simp [unrotate]
    rw [hr, hu]
    omega
  | false =>
    cases ptr_narrow with
    | true =>
      have hr : rotate false true a = a % 2 ^ 64 := by simp [rotate]
      have hu : unrotate false true (a % 2 ^ 64) = a % 2 ^ 64 := by simp [unrotate]
      rw [hr, hu]
      omega
    | false =>
      have h := rotate_le_eq a h64
      have hq : a / 2 ^ 8 < 2 ^ 56 := by omega
      simp only [unrotate, Bool.or_self, Bool.false_eq_true, if_false]
      rw [h]
      have h1 : ((a / 2 ^ 8 + (a % 2 ^ 8) * 2 ^ 56) * 2 ^ uchar_bits) % 2 ^ 64 =
          (a / 2 ^ 8) * 2 ^ 8 := by
        have he : (a / 2 ^ 8 + (a % 2 ^ 8) * 2 ^ 56) * 2 ^ uchar_bits =
            (a / 2 ^ 8) * 2 ^ 8 + (a % 2 ^ 8) * 2 ^ 64 := by
          unfold uchar_bits
          ring
        rw [he, Nat.add_mul_mod_self_right, Nat.mod_eq_of_lt (by omega)]
      have h2 : ((a / 2 ^ 8 + (a % 2 ^ 8) * 2 ^ 56) / 2 ^ 56) % 2 ^ uchar_bits =
          a % 2 ^ 8 := by
        rw [Nat.add_mul_div_right _ _ (show 0 < 2 ^ 56 by norm_num), Nat.div_eq_of_lt hq]
        unfold uchar_bits
        omega
      rw [h1, h2, lor_disjoint 8 (a / 2 ^ 8) (a % 2 ^ 8) (by omega)]
      omega

/-- Claim C5 witness: the round trip at a concrete 8-aligned input. -/
theorem claim_C5_witness :
    Btmalloc.unrotate false false (Btmalloc.rotate false false 0x123456789ABCDEF0) =
      0x123456789ABCDEF0 :=
  claim_C5 false false 0x123456789ABCDEF0 (by norm_num) (by norm_num)

/-- Number of fixed slot classes.  Index 0 is fixed-1, 1 is fixed-8, 2 is fixed-4, 3 is fixed-2. -/
def slot_type_count : Nat := 4

/-- Per-class mask applied to the control word before the tag test. -/
def fixedsize_mask : List Nat := [0x1, 0x3, 0xF, 0xF]

/-- Per-class expected tag value under the mask. -/
def fixedsize_test : List Nat := [0x1, 0x2, 0x4, 0xC]

/-- Per-class slot stride in bytes. -/
def fixedsize_alignment : List Nat := [1, 8, 4, 2]

/-- Per-class subblock footprint in bytes (user region plus bitmap). -/
def fixedsize_block_size : List Nat := [8, 504, 248, 128]

/-- Per-class highest usable bitmap shift. -/
def fixedsize_shift : List Nat := [7, 63, 63, 63]

/--
`bitmap_slot_type(b)` from the source: the first class index whose masked
tag test matches, or none (`-1` in C) when no fixed class matches.
-/
def bitmap_slot_type (b : Nat) : Option Nat :=
  (List.range slot_type_count).find? fun i =>
    b &&& fixedsize_mask.getD i 0 == fixedsize_test.getD i 0

/--
Claim C6: the classifier returns fixed-1 when `(w & 0x01) == 1`, else
fixed-8 when `(w & 0x03) == 2`, else fixed-4 when `(w & 0x0F) == 4`, else
fixed-2 when `(w & 0x0F) == 12`, else no fixed class, in exactly this
order, and the four classes carry strides of 1, 8, 4 and 2 bytes.
-/
theorem claim_C6 (w : Nat) :
    bitmap_slot_type w =
      (if w &&& 0x1 = 0x1 then some 0
       else if w &&& 0x3 = 0x2 then some 1
       else if w &&& 0xF = 0x4 then some 2
       else if w &&& 0xF = 0xC then some 3
       else none) ∧
    fixedsize_alignment.getD 0 0 = 1 ∧ fixedsize_alignment.getD 1 0 = 8 ∧
    fixedsize_alignment.getD 2 0 = 4 ∧ fixedsize_alignment.getD 3 0 = 2 := by
  refine ⟨?_, rfl, rfl, rfl, rfl⟩
  have hr : List.range slot_type_count = [0, 1, 2, 3] := rfl
  unfold bitmap_slot_type
  rw [hr]
  by_cases h1 : w &&& 0x1 = 0x1
  · rw [List.find?_cons_of_pos _ (by simp only [fixedsize_mask, fixedsize_test, List.getD_cons_zero, List.getD_cons_succ, beq_iff_eq]; exact h1),
      if_pos h1]
  · rw [List.find?_cons_of_neg _ (by simp only [fixedsize_mask, fixedsize_test, List.getD_cons_zero, List.getD_cons_succ, beq_iff_eq]; exact h1),
      if_neg h1]
    by_cases h2 : w &&& 0x3 = 0x2
    · rw [List.find?_cons_of_pos _ (by simp only [fixedsize_mask, fixedsize_test, List.getD_cons_zero, List.getD_cons_succ, beq_iff_eq]; exact h2),
        if_pos h2]
    · rw [List.find?_cons_of_neg _ (by simp only [fixedsize_mask, fixedsize_test, List.getD_cons_zero, List.getD_cons_succ, beq_iff_eq]; exact h2),
        if_neg h2]
      by_cases h3 : w &&& 0xF = 0x4
      · rw [List.find?_cons_of_pos _ (by simp only [fixedsize_mask, fixedsize_test, List.getD_cons_zero, List.getD_cons_succ, beq_iff_eq]; exact h3),
          if_pos h3]
      · rw [List.find?_cons_of_neg _ (by simp only [fixedsize_mask, fixedsize_test, List.getD_cons_zero, List.getD_cons_succ, beq_iff_eq]; exact h3),
          if_neg h3]
        by_cases h4 : w &&& 0xF = 0xC
        · rw [List.find?_cons_of_pos _ (by simp only [fixedsize_mask, fixedsize_test, List.getD_cons_zero, List.getD_cons_succ, beq_iff_eq]; exact h4),
            if_pos h4]
        · rw [List.find?_cons_of_neg _ (by simp only [fixedsize_mask, fixedsize_test, List.getD_cons_zero, List.getD_cons_succ, beq_iff_eq]; exact h4),
            if_neg h4]
          rfl

/--
Bit pattern of the C expression `1 << shift` at type `int` (32 bits).
For `shift = 31` the signed overflow wraps as compiled by the usual
two's-complement targets.
-/
def one_shl_int (shift : Nat) : Nat := 2 ^ shift % 2 ^ 32

/-- Bit pattern of the 32-bit complement `~x`. -/
def compl_int (x : Nat) : Nat := 2 ^ 32 - 1 - x

/--
Conversion of a 32-bit `int` bit pattern to the 64-bit unsigned value it
contributes when combined with an `aligned_uint`: negative values are
sign-extended.
-/
def int_to_uint64 (x : Nat) : Nat := if x < 2 ^ 31 then x else x + (2 ^ 64 - 2 ^ 32)

/--
The replacement word `freed = b & ~(1 << shift)` computed by `clear_bit`
in the source, with `1 << shift` evaluated at type `int` as the source
writes it.
-/
def clear_bit_value (b shift : Nat) : Nat := b &&& int_to_uint64 (compl_int (one_shl_int shift))

/--
Claim C2 (evaluation at the failing input): the claim states the CAS
replacement equals `B & ~(2^i)` for every bitmap index `i` up to 62, but
`1 << shift` is computed at type `int`, so for `i = 31` (a fixed-8 slot at
`bitmap_address - 248`) on `B = 0x4000000080000002` the code proposes `2`,
clearing bits 31 and 62 both, while `B & ~(2^31) = 0x4000000000000002`;
for a small index such as `i = 1` the two agree.
-/
theorem claim_C2_bug :
    clear_bit_value 0x4000000080000002 31 = 0x2 ∧
    0x4000000080000002 &&& (2 ^ 64 - 1 - 2 ^ 31) = 0x4000000000000002 ∧
    clear_bit_value 0x4000000080000002 31 ≠
      0x4000000080000002 &&& (2 ^ 64 - 1 - 2 ^ 31) ∧
    clear_bit_value 0x4000000080000002 1 =
      0x4000000080000002 &&& (2 ^ 64 - 1 - 2 ^ 1) := by
  refine ⟨?_, ?_, ?_, ?_⟩ <;> decide

/-- Memory: the 64-bit word stored at each 8-aligned byte address. -/
def Mem : Type := Nat → Nat

/--
`allocation_block(allocated)` from the source: round `allocated` down to
the 512-byte boundary, read the word just below the boundary; a non-zero
low byte means the block starting at the boundary owns the address,
otherwise the word itself is the owning block's base (the source asserts
it lies strictly below the boundary, modelled as `none` on violation).
-/
def allocation_block (mem : Mem) (allocated : Nat) : Option Nat :=
  let boundary := allocated / block_size * block_size
  let info := mem (boundary - alignment)
  if info &&& uchar_mask ≠ 0 then some boundary
  else if info < boundary then some info
  else none

/--
The loop of `fixedsize_block` in the source: walk backwards from the
current candidate bitmap word, skipping one subblock footprint per step,
until the freed address lies at or above the start of the candidate's
user region.  The C asserts become `none`; the fuel argument bounds the
loop (the source loops unboundedly but moves at least 8 bytes per step).
-/
def fixedsize_loop (mem : Mem) (allocated block : Nat) : Nat → Nat → Option Nat
  | _bitmap, 0 => none
  | bitmap, fuel + 1 =>
    if mem bitmap = 0 then none
    else if ¬ ((mem bitmap &&& 1 = 1 ∧ allocated / alignment = bitmap / alignment) ∨
        allocated < bitmap) then none
    else
      match bitmap_slot_type (mem bitmap) with
      | none => none
      | some st =>
        if bitmap - fixedsize_block_size.getD st 0 + alignment ≤ allocated then
          if block ≤ bitmap - fixedsize_block_size.getD st 0 + alignment then some bitmap
          else none
        else if block ≤ bitmap - fixedsize_block_size.getD st 0 then
          fixedsize_loop mem allocated block (bitmap - fixedsize_block_size.getD st 0) fuel
        else none

/--
`fixedsize_block(allocated)` from the source: start at the tail word of
the 512-byte block containing `allocated` and walk backwards.  A 512-byte
block holds at most 64 subblocks, so 64 steps of fuel are enough.
-/
def fixedsize_block (mem : Mem) (allocated : Nat) : Option Nat :=
  let block := allocated / block_size * block_size
  fixedsize_loop mem allocated block (block + (block_size - alignment)) (block_size / alignment)

/--
The bitmap word, slot class and bit shift computed by
`free_fixed_size_memory` in the source before it attempts the CAS:
`offset` is non-zero only for the fixed-1 class, and
`shift = (bitmap + offset - allocated) / stride`.
-/
def free_fixed_shift (mem : Mem) (little_endian : Bool) (allocated : Nat) :
    Option (Nat × Nat × Nat) :=
  match fixedsize_block mem allocated with
  | none => none
  | some bitmap =>
    match bitmap_slot_type (mem bitmap) with
    | none => none
    | some st =>
      let offset := if st = 0 then
          fixedsize_block_size.getD 0 0 - (if little_endian then 0 else 1)
        else 0
      some (bitmap, st, (bitmap + offset - allocated) / fixedsize_alignment.getD st 1)

/--
Postcondition of the backward walk: a returned bitmap word is non-zero,
carries a fixed class, the freed address lies at or above the start of
the subblock's user region and below the end of the bitmap word, and the
subblock does not underflow the 512-byte block.
-/
theorem fixedsize_loop_post (mem : Mem) (allocated block : Nat) :
    ∀ fuel bitmap r, fixedsize_loop mem allocated block bitmap fuel = some r →
      ∃ st, bitmap_slot_type (mem r) = some st ∧
        mem r ≠ 0 ∧
        r - fixedsize_block_size.getD st 0 + alignment ≤ allocated ∧
        allocated < r + alignment ∧
        block ≤ r - fixedsize_block_size.getD st 0 + alignment := by
  intro fuel
  induction fuel with
  | zero =>
    intro bitmap r h
    simp [fixedsize_loop] at h
  | succ fuel ih =>
    intro bitmap r h
    simp only [fixedsize_loop] at h
    split at h
    next h0 => exact absurd h (by simp)
    next h0 =>
      split at h
      next hg => exact absurd h (by simp)
      next hg =>
        rw [not_not] at hg
        split at h
        next hbt => exact absurd h (by simp)
        next st hbt =>
          split at h
          next hle =>
            split at h
            next hbk =>
              injection h with h2
              subst h2
              refine ⟨st, hbt, h0, hle, ?_, hbk⟩
              rcases hg with ⟨hb1, hdiv⟩ | hlt
              · simp only [alignment] at hdiv ⊢
                omega
              · simp only [alignment]
                omega
            next hbk => exact absurd h (by simp)
          next hle =>
            split at h
            next hbk => exact ih _ r h
            next hbk => exact absurd h (by simp)

/--
Claim C3: the region navigator rounds `p` down to `base = p & ~511`, reads
the word at `base - 8`; a non-zero low byte selects the block starting at
`base`, otherwise the word itself is the owning block's base (the source
asserts it is below the boundary).  For a fixed class the walk skips one
subblock footprint per step - 8, 128, 248 or 504 bytes for
fixed-1/2/4/8, the 7/120/240/496 user bytes plus the bitmap - and yields
the bitmap word of the subblock whose user region contains `p`.
-/
theorem claim_C3 (mem : Mem) (p : Nat) :
    (mem (p / block_size * block_size - alignment) &&& uchar_mask ≠ 0 →
      allocation_block mem p = some (p / block_size * block_size)) ∧
    (mem (p / block_size * block_size - alignment) &&& uchar_mask = 0 →
      mem (p / block_size * block_size - alignment) < p / block_size * block_size →
      allocation_block mem p = some (mem (p / block_size * block_size - alignment))) ∧
    (fixedsize_block_size.getD 0 0 = 7 + 1 ∧
     fixedsize_block_size.getD 3 0 = 120 + alignment ∧
     fixedsize_block_size.getD 2 0 = 240 + alignment ∧
     fixedsize_block_size.getD 1 0 = 496 + alignment) ∧
    (∀ r, fixedsize_block mem p = some r →
      ∃ st, bitmap_slot_type (mem r) = some st ∧
        r - fixedsize_block_size.getD st 0 + alignment ≤ p ∧
        p < r + alignment) := by
  refine ⟨?_, ?_, ⟨rfl, rfl, rfl, rfl⟩, ?_⟩
  · intro hne
    simp only [allocation_block]
    rw [if_pos hne]
  · intro hz hlt
    simp only [allocation_block]
    rw [if_neg (by simp [hz]), if_pos hlt]
  · intro r h
    obtain ⟨st, hst, _, hlo, hhi, _⟩ :=
      fixedsize_loop_post mem p (p / block_size * block_size) _ _ r h
    exact ⟨st, hst, hlo, hhi⟩

/--
Claim C3 witness: the navigator applied to the concrete fixed-1 layout of
the source's own `main` test, relocated to the block at base 512: the
word at 1016 holds the tag `1`, the word at 1008 holds the bitmap `0x19`,
and `p = 1012` resolves to the subblock whose bitmap word sits at 1008.
-/
theorem claim_C3_witness :
    ∃ st,
      bitmap_slot_type
        ((fun a => if a = 1016 then 1 else if a = 1008 then 0x19 else 0 : Mem) 1008) =
          some st ∧
      1008 - fixedsize_block_size.getD st 0 + alignment ≤ 1012 ∧
      (1012 : Nat) < 1008 + alignment :=
  (claim_C3 (fun a => if a = 1016 then 1 else if a = 1008 then 0x19 else 0) 1012).2.2.2
    1008 (by decide)

/--
Claim C10: when the word below a 512-byte boundary has zero low byte,
`allocation_block` takes the stored 64-bit value verbatim as the owning
block's base - no `unrotate` is applied - and the source asserts the base
lies strictly below the boundary (modelled as `none` otherwise).  The
last conjunct exhibits a boundary word that `unrotate` would have mapped
to a different address, showing the navigator applies no decode step even
on a little-endian host.
-/
theorem claim_C10 (mem : Mem) (p : Nat) :
    (mem (p / block_size * block_size - alignment) &&& uchar_mask = 0 →
      mem (p / block_size * block_size - alignment) < p / block_size * block_size →
      allocation_block mem p = some (mem (p / block_size * block_size - alignment))) ∧
    (mem (p / block_size * block_size - alignment) &&& uchar_mask = 0 →
      p / block_size * block_size ≤ mem (p / block_size * block_size - alignment) →
      allocation_block mem p = none) ∧
    (allocation_block (fun a => if a = 504 then 0x100 else 0) 513 = some 0x100 ∧
      unrotate false false 0x100 ≠ 0x100) := by
  refine ⟨?_, ?_, by decide, by decide⟩
  · intro hz hlt
    simp only [allocation_block]
    rw [if_neg (by simp [hz]), if_pos hlt]
  · intro hz hge
    simp only [allocation_block]
    rw [if_neg (by simp [hz]), if_neg (by omega)]

/--
Claim C10 witness: the verbatim-read branch applied at the concrete
memory of the last conjunct.
-/
theorem claim_C10_witness :
    allocation_block (fun a => if a = 504 then 0x100 else 0) 513 = some 0x100 :=
  (claim_C10 (fun a => if a = 504 then 0x100 else 0) 513).1 (by decide) (by decide)

/--
Claim C1 (counterexample): the claim states the bit index is
`1 + (bitmap_address - p) / stride` for fixed-{2,4,8}; on a fixed-8
subblock whose bitmap word sits at 1016 with `p = 1000` the source
computes shift `(1016 - 1000) / 8 = 2`, not `1 + 2 = 3`.
-/
theorem claim_C1_counterexample :
    free_fixed_shift (fun a => if a = 1016 then 6 else 0) true 1000 = some (1016, 1, 2) ∧
    (2 : Nat) ≠ 1 + (1016 - 1000) / 8 := by
  refine ⟨by decide, by decide⟩

/--
Claim C1 (amended): for every fixed-2, fixed-4 or fixed-8 slot freed at
user address `p`, the source computes the bitmap bit index as
`i = (bitmap_address - p) / stride` - with no `+ 1` - where the stride is
8, 4 or 2 bytes for classes 1, 2, 3 respectively.
-/
theorem claim_C1 (mem : Mem) (le : Bool) (p r st sh : Nat)
    (h : free_fixed_shift mem le p = some (r, st, sh)) (hst : st ≠ 0) :
    sh = (r - p) / fixedsize_alignment.getD st 1 ∧
    (st = 1 → fixedsize_alignment.getD st 1 = 8) ∧
    (st = 2 → fixedsize_alignment.getD st 1 = 4) ∧
    (st = 3 → fixedsize_alignment.getD st 1 = 2) := by
  refine ⟨?_, by rintro rfl; rfl, by rintro rfl; rfl, by rintro rfl; rfl⟩
  unfold free_fixed_shift at h
  split at h
  next => exact absurd h (by simp)
  next bm hfb =>
    split at h
    next => exact absurd h (by simp)
    next st2 hbt =>
      simp only [Option.some.injEq, Prod.mk.injEq] at h
      obtain ⟨hr, hst2, hsh⟩ := h
      subst hr
      subst hst2
      rw [if_neg hst] at hsh
      simp only [Nat.add_zero] at hsh
      exact hsh.symm

/--
Claim C1 witness: the amended index formula applied at the concrete
fixed-8 layout of the counterexample.
-/
theorem claim_C1_witness :
    (2 : Nat) = (1016 - 1000) / fixedsize_alignment.getD 1 1 ∧
    ((1 : Nat) = 1 → fixedsize_alignment.getD 1 1 = 8) ∧
    ((1 : Nat) = 2 → fixedsize_alignment.getD 1 1 = 4) ∧
    ((1 : Nat) = 3 → fixedsize_alignment.getD 1 1 = 2) :=
  claim_C1 (fun a => if a = 1016 then 6 else 0) true 1000 1016 1 2 (by decide) (by decide)

/-- Per-thread hoard byte quota (`MAX_HOARD` in the source). -/
def MAX_HOARD : Nat := 3000

/-- sizeof(void*) on the 64-bit host. -/
def ptr_size : Nat := 8

/--
Thread-local allocator state: the heap memory, the head of the freed
memory hoarding list (`freed_list`, 0 for NULL) and the running byte
count `hoard_size`.
-/
structure HeapThread where
  mem : Mem
  freed_list : Nat
  hoard_size : Nat

/--
`hoard_freed(size, memory)` from the source: refuse (returning 0) when
the slot cannot hold a pointer or the quota would be exceeded; otherwise
write the previous head into the freed slot, make the slot the new head
and grow `hoard_size`.
-/
def hoard_freed (size memory : Nat) (s : HeapThread) : Bool × HeapThread :=
  if size < ptr_size ∨ s.hoard_size + size > MAX_HOARD then (false, s)
  else
    (true,
      { mem := fun a => if a = memory then s.freed_list else s.mem a,
        freed_list := memory,
        hoard_size := s.hoard_size + size })

/--
`unhoard(next)` from the source: `next` is the address of a link holding
the selected entry; the entry is unlinked by storing its successor into
the link, and the entry is returned.  The source asserts the selection is
non-NULL, modelled as `none`.
-/
def unhoard (next : Nat) (s : HeapThread) : Option (Nat × HeapThread) :=
  if s.mem next = 0 then none
  else
    some (s.mem next,
      { s with mem := fun a => if a = next then s.mem (s.mem next) else s.mem a })

/-- A hoard interaction: one `hoard_freed` or one `unhoard` call. -/
inductive HoardOp where
  | deposit (size memory : Nat)
  | withdraw (next : Nat)

/-- Execute one hoard interaction on the thread state. -/
def hoard_step (s : HeapThread) : HoardOp → HeapThread
  | .deposit size m => (hoard_freed size m s).2
  | .withdraw nxt =>
    match unhoard nxt s with
    | none => s
    | some r => r.2

/-- Execute a sequence of hoard interactions. -/
def hoard_run (s : HeapThread) : List HoardOp → HeapThread
  | [] => s
  | op :: rest => hoard_run (hoard_step s op) rest

/-- No hoard interaction ever decreases `hoard_size`. -/
theorem hoard_step_mono (s : HeapThread) (op : HoardOp) :
    s.hoard_size ≤ (hoard_step s op).hoard_size := by
  cases op with
  | deposit size m =>
    simp only [hoard_step, hoard_freed]
    split
    · exact Nat.le_refl _
    · exact Nat.le_add_right _ _
  | withdraw nxt =>
    simp only [hoard_step]
    cases hu : unhoard nxt s with
    | none => exact Nat.le_refl _
    | some r =>
      unfold unhoard at hu
      split at hu
      next => exact absurd hu (by simp)
      next =>
        injection hu with h2
        subst h2
        exact Nat.le_refl _

/-- A hoard interaction preserves the `MAX_HOARD` bound on `hoard_size`. -/
theorem hoard_step_cap (s : HeapThread) (op : HoardOp) (h : s.hoard_size ≤ MAX_HOARD) :
    (hoard_step s op).hoard_size ≤ MAX_HOARD := by
  cases op with
  | deposit size m =>
    simp only [hoard_step, hoard_freed]
    split
    next => exact h
    next hc =>
      simp only [not_or, not_lt, not_le] at hc
      exact Nat.le_of_lt_succ (Nat.lt_succ_of_le hc.2)
  | withdraw nxt =>
    simp only [hoard_step]
    cases hu : unhoard nxt s with
    | none => exact h
    | some r =>
      unfold unhoard at hu
      split at hu
      next => exact absurd hu (by simp)
      next =>
        injection hu with h2
        subst h2
        exact h

/-- `hoard_size` is monotone along any sequence of hoard interactions. -/
theorem hoard_run_mono (ops : List HoardOp) :
    ∀ s : HeapThread, s.hoard_size ≤ (hoard_run s ops).hoard_size := by
  induction ops with
  | nil => intro s; exact Nat.le_refl _
  | cons op rest ih =>
    intro s
    simp only [hoard_run]
    exact Nat.le_trans (hoard_step_mono s op) (ih _)

/-- The `MAX_HOARD` bound is preserved along any sequence of interactions. -/
theorem hoard_run_cap (ops : List HoardOp) :
    ∀ s : HeapThread, s.hoard_size ≤ MAX_HOARD →
      (hoard_run s ops).hoard_size ≤ MAX_HOARD := by
  induction ops with
  | nil => intro s h; exact h
  | cons op rest ih =>
    intro s h
    simp only [hoard_run]
    exact ih _ (hoard_step_cap s op h)

/--
Claim C8: `hoard_freed(size, m)` succeeds exactly when
`size >= sizeof(void*)` and `hoard_size + size <= MAX_HOARD`; on success
the previous head is written into `m`, `m` becomes the head and
`hoard_size` grows by exactly `size`; on refusal the state is unchanged.
-/
theorem claim_C8 (size memory : Nat) (s : HeapThread) :
    ((hoard_freed size memory s).1 = true ↔
      ptr_size ≤ size ∧ s.hoard_size + size ≤ MAX_HOARD) ∧
    ((hoard_freed size memory s).1 = true →
      (hoard_freed size memory s).2.mem memory = s.freed_list ∧
      (hoard_freed size memory s).2.freed_list = memory ∧
      (hoard_freed size memory s).2.hoard_size = s.hoard_size + size) ∧
    ((hoard_freed size memory s).1 = false → (hoard_freed size memory s).2 = s) := by
  by_cases hc : size < ptr_size ∨ s.hoard_size + size > MAX_HOARD
  · have h1 : hoard_freed size memory s = (false, s) := by
      simp [hoard_freed, hc]
    rw [h1]
    refine ⟨?_, ?_, fun _ => rfl⟩
    · simp only [Bool.false_eq_true, false_iff]
      simp only [ptr_size, MAX_HOARD] at hc ⊢
      omega
    · intro h
      exact absurd h (by simp)
  · have h1 : hoard_freed size memory s =
        (true,
          { mem := fun a => if a = memory then s.freed_list else s.mem a,
            freed_list := memory,
            hoard_size := s.hoard_size + size }) := by
      simp [hoard_freed, hc]
    rw [h1]
    refine ⟨?_, fun _ => ⟨by simp, rfl, rfl⟩, ?_⟩
    · simp only [true_iff]
      simp only [ptr_size, MAX_HOARD] at hc ⊢
      omega
    · intro h
      exact absurd h (by simp)

/-- Claim C8 witness: a deposit of 8 bytes into an empty hoard succeeds. -/
theorem claim_C8_witness :
    (hoard_freed 8 16 (⟨fun _ => 0, 0, 0⟩ : HeapThread)).1 = true ∧
    (hoard_freed 8 16 (⟨fun _ => 0, 0, 0⟩ : HeapThread)).2.hoard_size =
      (⟨fun _ => 0, 0, 0⟩ : HeapThread).hoard_size + 8 := by
  have h := claim_C8 8 16 (⟨fun _ => 0, 0, 0⟩ : HeapThread)
  have hs : (hoard_freed 8 16 (⟨fun _ => 0, 0, 0⟩ : HeapThread)).1 = true :=
    h.1.mpr ⟨by norm_num [ptr_size], by norm_num [MAX_HOARD]⟩
  exact ⟨hs, (h.2.1 hs).2.2⟩

/--
Claim C9: `unhoard` unlinks the selected entry and returns it, touching
no other memory and leaving `freed_list`-head bookkeeping and
`hoard_size` unchanged; no hoard interaction ever decreases
`hoard_size`, so the `MAX_HOARD` quota bounds the cumulative bytes ever
hoarded, not the current contents of the hoard.
-/
theorem claim_C9 (next : Nat) (s : HeapThread) (ops : List HoardOp) :
    (s.mem next ≠ 0 →
      ∃ sel s2, unhoard next s = some (sel, s2) ∧
        sel = s.mem next ∧
        s2.hoard_size = s.hoard_size ∧
        s2.freed_list = s.freed_list ∧
        s2.mem next = s.mem sel ∧
        (∀ a, a ≠ next → s2.mem a = s.mem a)) ∧
    (s.mem next = 0 → unhoard next s = none) ∧
    (∀ op : HoardOp, s.hoard_size ≤ (hoard_step s op).hoard_size) ∧
    s.hoard_size ≤ (hoard_run s ops).hoard_size ∧
    (s.hoard_size ≤ MAX_HOARD → (hoard_run s ops).hoard_size ≤ MAX_HOARD) := by
  refine ⟨?_, ?_, hoard_step_mono s, hoard_run_mono ops s, hoard_run_cap ops s⟩
  · intro h
    refine ⟨s.mem next,
      { s with mem := fun a => if a = next then s.mem (s.mem next) else s.mem a },
      ?_, rfl, rfl, rfl, ?_, ?_⟩
    · simp only [unhoard, if_neg h]
    · simp
    · intro a ha
      simp [if_neg ha]
  · intro h
    simp only [unhoard, if_pos h]

/--
Claim C9 witness: unlinking a concrete entry keeps `hoard_size` at 5, and
a deposit-withdraw sequence keeps it within the quota.
-/
theorem claim_C9_witness :
    (∃ sel s2,
      unhoard 16 (⟨fun a => if a = 16 then 24 else 0, 16, 5⟩ : HeapThread) = some (sel, s2) ∧
      sel = (⟨fun a => if a = 16 then 24 else 0, 16, 5⟩ : HeapThread).mem 16 ∧
      s2.hoard_size = (⟨fun a => if a = 16 then 24 else 0, 16, 5⟩ : HeapThread).hoard_size ∧
      s2.freed_list = (⟨fun a => if a = 16 then 24 else 0, 16, 5⟩ : HeapThread).freed_list ∧
      s2.mem 16 = (⟨fun a => if a = 16 then 24 else 0, 16, 5⟩ : HeapThread).mem sel ∧
      (∀ a, a ≠ 16 →
        s2.mem a = (⟨fun a => if a = 16 then 24 else 0, 16, 5⟩ : HeapThread).mem a)) ∧
    (hoard_run (⟨fun a => if a = 16 then 24 else 0, 16, 5⟩ : HeapThread)
        [HoardOp.deposit 8 40, HoardOp.withdraw 16]).hoard_size ≤ MAX_HOARD := by
  have h := claim_C9 16 (⟨fun a => if a = 16 then 24 else 0, 16, 5⟩ : HeapThread)
      [HoardOp.deposit 8 40, HoardOp.withdraw 16]
  exact ⟨h.1 (by decide), h.2.2.2.2 (by norm_num [MAX_HOARD])⟩

/--
Outcome of `free_fixed_size_memory`: the bitmap bit was cleared on the
numbered CAS attempt, or the slot was deposited into the hoard.
-/
inductive FreeOutcome where
  | cleared (attempt : Nat)
  | hoarded
deriving DecidableEq

/--
The "try harder" busy loop of `free_fixed_size_memory`: keep attempting
the bitmap CAS until it succeeds.  The attempt outcomes come from the
oracle `cas`, which abstracts the interleaving of the other threads; the
fuel bounds the unbounded source loop.
-/
def busy_loop (cas : Nat → Bool) : Nat → Nat → Option Nat
  | _, 0 => none
  | k, fuel + 1 => if cas k then some k else busy_loop cas (k + 1) fuel

/--
The publication tail of `free_fixed_size_memory` in the source: first
CAS attempt; on failure try `hoard_freed`; if that refuses, busy-retry
the CAS.
-/
def free_fixed_publish (cas : Nat → Bool) (size memory : Nat) (s : HeapThread)
    (fuel : Nat) : Option (FreeOutcome × HeapThread) :=
  if cas 0 then some (.cleared 0, s)
  else if (hoard_freed size memory s).1 then some (.hoarded, (hoard_freed size memory s).2)
  else
    match busy_loop cas 1 fuel with
    | some k => some (.cleared k, s)
    | none => none

/--
`free_fixed_size_memory(allocated, block)` from the source: locate the
subblock's bitmap word and slot class, compute the shift, then publish
the freed bit; the size offered to the hoard is the slot stride
`fixedsize_alignment[slot_type]`.
-/
def free_fixed_size_memory (cas : Nat → Bool) (mem : Mem) (little_endian : Bool)
    (allocated : Nat) (s : HeapThread) (fuel : Nat) : Option (FreeOutcome × HeapThread) :=
  match free_fixed_shift mem little_endian allocated with
  | none => none
  | some r => free_fixed_publish cas (fixedsize_alignment.getD r.2.1 1) allocated s fuel

/-- A successful busy loop returns a successful attempt at or after its start. -/
theorem busy_loop_some (cas : Nat → Bool) :
    ∀ fuel k j, busy_loop cas k fuel = some j → cas j = true ∧ k ≤ j := by
  intro fuel
  induction fuel with
  | zero =>
    intro k j h
    simp [busy_loop] at h
  | succ fuel ih =>
    intro k j h
    simp only [busy_loop] at h
    split at h
    next hc =>
      injection h with h2
      subst h2
      exact ⟨hc, Nat.le_refl _⟩
    next hc =>
      obtain ⟨h1, h2⟩ := ih (k + 1) j h
      exact ⟨h1, by omega⟩

/--
Claim C7 (amended): whenever the first bitmap CAS of a fixed-size free
fails, the slot is either deposited into the thread hoard, or - when the
deposit is refused - the CAS is busy-retried until an attempt succeeds
and the hoard state is untouched.  A fixed-8 slot (stride 8 = pointer
size) is hoarded whenever the quota allows; a fixed-4 slot (stride 4,
too small to hold a pointer) is never hoarded.
-/
theorem claim_C7 (cas : Nat → Bool) (size memory : Nat) (s : HeapThread) (fuel : Nat)
    (out : FreeOutcome) (s2 : HeapThread)
    (h : free_fixed_publish cas size memory s fuel = some (out, s2))
    (hcas : cas 0 = false) :
    ((out = .hoarded ∧ (hoard_freed size memory s).1 = true ∧
        s2 = (hoard_freed size memory s).2) ∨
      (∃ k, out = .cleared k ∧ 1 ≤ k ∧ cas k = true ∧
        (hoard_freed size memory s).1 = false ∧ s2 = s)) ∧
    (size = 8 → s.hoard_size + 8 ≤ MAX_HOARD → out = .hoarded) ∧
    (size = 4 → out ≠ .hoarded) := by
  unfold free_fixed_publish at h
  rw [hcas] at h
  simp only [Bool.false_eq_true, if_false] at h
  by_cases hh : (hoard_freed size memory s).1 = true
  · rw [if_pos hh] at h
    injection h with h2
    injection h2 with h3 h4
    subst h3
    subst h4
    refine ⟨Or.inl ⟨rfl, hh, rfl⟩, fun _ _ => rfl, ?_⟩
    intro hs
    subst hs
    have h4 : (hoard_freed 4 memory s).1 = false := by
      simp [hoard_freed, ptr_size]
    rw [h4] at hh
    exact absurd hh (by simp)
  · have hh' : (hoard_freed size memory s).1 = false := by
      simpa using hh
    rw [if_neg hh] at h
    cases hb : busy_loop cas 1 fuel with
    | none =>
      rw [hb] at h
      exact absurd h (by simp)
    | some k =>
      rw [hb] at h
      injection h with h2
      injection h2 with h3 h4
      subst h3
      subst h4
      obtain ⟨hck, hk⟩ := busy_loop_some cas fuel 1 k hb
      refine ⟨Or.inr ⟨k, rfl, hk, hck, hh', rfl⟩, ?_, fun _ => by simp⟩
      intro hs hcap
      subst hs
      simp only [MAX_HOARD] at hcap
      have hc2 : ¬ (8 < ptr_size ∨ s.hoard_size + 8 > MAX_HOARD) := by
        simp only [ptr_size, MAX_HOARD]
        omega
      have hok : (hoard_freed 8 memory s).1 = true := by
        simp [hoard_freed, hc2]
      rw [hok] at hh'
      exact absurd hh' (by simp)

/--
Claim C7 (counterexample): the claim states that a thread losing the CAS
race while freeing a fixed-4 slot deposits the slot into its hoard given
hoard capacity.  On a concrete fixed-4 block (tag word 4 at address
1016, freed address 1000) with an empty hoard - ample capacity - and a
first CAS attempt that fails, the source instead refuses the deposit
(stride 4 cannot hold a pointer) and busy-retries until the CAS
succeeds: the outcome is `cleared 1`, not `hoarded`.
-/
theorem claim_C7_counterexample :
    (free_fixed_size_memory (fun k => decide (0 < k))
        (fun a => if a = 1016 then 4 else 0) true 1000
        (⟨fun _ => 0, 0, 0⟩ : HeapThread) 3).map Prod.fst =
      some (FreeOutcome.cleared 1) ∧
    FreeOutcome.cleared 1 ≠ FreeOutcome.hoarded ∧
    (⟨fun _ => 0, 0, 0⟩ : HeapThread).hoard_size + 4 ≤ MAX_HOARD ∧
    (fun k => decide (0 < k)) 0 = false := by
  refine ⟨by decide, by decide, by decide, by decide⟩

/--
Claim C7 witness: a fixed-8-sized deposit after a failed first CAS is
hoarded, through the amended theorem at a concrete state.
-/
theorem claim_C7_witness :
    ((FreeOutcome.hoarded = FreeOutcome.hoarded ∧
        (hoard_freed 8 999 (⟨fun _ => 0, 0, 0⟩ : HeapThread)).1 = true ∧
        (hoard_freed 8 999 (⟨fun _ => 0, 0, 0⟩ : HeapThread)).2 =
          (hoard_freed 8 999 (⟨fun _ => 0, 0, 0⟩ : HeapThread)).2) ∨
      (∃ k, FreeOutcome.hoarded = FreeOutcome.cleared k ∧ 1 ≤ k ∧
        (fun k => decide (0 < k)) k = true ∧
        (hoard_freed 8 999 (⟨fun _ => 0, 0, 0⟩ : HeapThread)).1 = false ∧
        (hoard_freed 8 999 (⟨fun _ => 0, 0, 0⟩ : HeapThread)).2 =
          (⟨fun _ => 0, 0, 0⟩ : HeapThread))) ∧
    ((8 : Nat) = 8 → (⟨fun _ => 0, 0, 0⟩ : HeapThread).hoard_size + 8 ≤ MAX_HOARD →
      FreeOutcome.hoarded = FreeOutcome.hoarded) ∧
    ((8 : Nat) = 4 → FreeOutcome.hoarded ≠ FreeOutcome.hoarded) :=
  claim_C7 (fun k => decide (0 < k)) 8 999 (⟨fun _ => 0, 0, 0⟩ : HeapThread) 3
    FreeOutcome.hoarded (hoard_freed 8 999 (⟨fun _ => 0, 0, 0⟩ : HeapThread)).2
    (by rfl) (by rfl)

end Btmalloc
